import Mathlib

/-!
Verification development for the ArcadeMIDIGenerator pixel-grid event codec.

The program (src/main.py) converts a stream of MIDI note events into
MakeCode Arcade TypeScript code.  Its core is a codec:

* the Python encoder serializes each note event as a fixed 120-character
  column of hex digits (`format_hex`, `format_col`), interleaves two header
  columns at each frame start (main encoder loop with `width_count`),
  and renders columns into stacked image blocks (`format_cols_to_img`,
  the `images_code` loop);
* the generated TypeScript decoder recovers frame extents and field bands
  by scanning pixel-value transitions (`recompute_frames`,
  `recompute_frame`) and reads fields per column (`get_hex_val`,
  `get_notes`);
* the TypeScript playback driver maintains the list of sounding notes
  (`note_on`, `play_now`).

Every definition below is a direct shallow embedding of the corresponding
source function; columns are lists of characters, images are lists of
120-row chunk blocks, and MakeCode's `Image.getPixel` out-of-range /
missing-cell behaviour is modelled by the value 0.
-/

set_option maxRecDepth 100000

/-! ## Hex formatting (Python `format_hex`, `hex`) -/

/-- Hex digit character for a value below 16 (Python `hex` uses lowercase). -/
def hexDigitChar (n : Nat) : Char :=
  if n < 10 then Char.ofNat (48 + n) else Char.ofNat (87 + n)

/-- Worker for `hexDigits`: divide by 16, prepending remainders, with
enough fuel to exhaust the quotient (structural, so that concrete columns
evaluate). -/
def hexDigitsGo : Nat → Nat → List Char → List Char
  | 0, _, acc => acc
  | fuel + 1, n, acc =>
    if n < 16 then hexDigitChar n :: acc
    else hexDigitsGo fuel (n / 16) (hexDigitChar (n % 16) :: acc)

/-- The digits of `hex(n)[2:]`: most significant first, `"0"` for zero. -/
def hexDigits (n : Nat) : List Char := hexDigitsGo (n + 1) n []

/-- Python `format_hex(num, min_len)`: the hex digits of `num`,
left-padded with `'0'` to at least `min_len` characters
(`"0" * (min_len - len(raw_hex)) + raw_hex`). -/
def format_hex (num : Nat) (min_len : Nat) : List Char :=
  let raw := hexDigits num
  List.replicate (min_len - raw.length) '0' ++ raw

/-- Numeric value of a hex digit character; any other character reads as 0
(in a rendered image every cell is a hex digit). -/
def hexCharVal (c : Char) : Nat :=
  if 48 ≤ c.toNat ∧ c.toNat ≤ 57 then c.toNat - 48
  else if 97 ≤ c.toNat ∧ c.toNat ≤ 102 then c.toNat - 87
  else 0

/-- Value of a big-endian string of hex digits (the decoder's
`parseInt(hex_str, 16)` over the digit characters it collected). -/
def fromHexVals (l : List Char) : Nat :=
  l.foldl (fun acc c => acc * 16 + hexCharVal c) 0

/-! ## Note names (Python / TypeScript `note_num_to_name`) -/

/-- The twelve pitch-class names, starting at A. -/
def note_names : List String :=
  ["A", "A#", "B", "C", "C#", "D", "D#", "E", "F", "F#", "G", "G#"]

/-- Python `note_num_to_name(num)`: `notes[num % 12] + str(ceil(num / 12))`.
Python `%` is modelled by `Int.emod` (nonnegative result for positive
modulus) and `math.ceil(num / 12)` by exact integer ceiling division. -/
def note_num_to_name (num : Int) : String :=
  let octave : Int := -((-num).ediv 12)
  let name := (note_names[(num.emod 12).toNat]?).getD ""
  name ++ toString octave

/-- Whether the derived note name contains the accidental marker
(`"#" in note_num_to_name(...)` in `format_col`; the marker is a single
character, so substring containment is character membership). -/
def is_sharp (num : Int) : Bool := (note_num_to_name num).data.contains '#'

/-! ## Column encoder (Python `format_col`) -/

/-- Python list assignment `note_list[note] = c`: succeeds only for an
index inside the list, otherwise the program raises `IndexError`
(modelled as `none`). -/
def set_note (l : List Char) (i : Nat) (c : Char) : Option (List Char) :=
  if i < l.length then some (l.set i c) else none

/-- The `for note in notes` loop of `format_col`: each note sets its flag
slot to `'f'` (accidental) or `'1'` (natural); the name is derived from
`note - 21`. -/
def set_notes (l : List Char) : List Nat → Option (List Char)
  | [] => some l
  | n :: rest =>
    (set_note l n (if is_sharp ((n : Int) - 21) then 'f' else '1')).bind
      fun l2 => set_notes l2 rest

/-- Python `format_col(time, velocity, notes)`: 8 hex digits of `time`,
2 hex digits of `velocity`, the `88 + 21` note-flag slots (initially all
`'0'`), and the terminator `'0'`.  `none` models the `IndexError` raised
when a note is outside the flag array. -/
def format_col (time velocity : Nat) (notes : List Nat) : Option (List Char) :=
  (set_notes (List.replicate (88 + 21) '0') notes).map fun note_list =>
    format_hex time 8 ++ format_hex velocity 2 ++ note_list ++ ['0']

/-- First header column emitted at each frame start:
`("1" * (8 + 2 + (88 + 21))) + "0"`. -/
def header1 : List Char := List.replicate (8 + 2 + (88 + 21)) '1' ++ ['0']

/-- Second header column emitted at each frame start:
`("3" * 8) + ("2" * 2) + ("1" * (88 + 21)) + "0"`. -/
def header2 : List Char :=
  List.replicate 8 '3' ++ List.replicate 2 '2' ++
    List.replicate (88 + 21) '1' ++ ['0']

/-! ## The encoder main loop -/

/-- One chord of the codec's data model: onset delay in milliseconds,
velocity, and the list of note slots to press (the spec's note set,
represented as a strictly ascending list). -/
structure Chord where
  time : Nat
  velocity : Nat
  notes : List Nat
  deriving DecidableEq, Repr

/-- One step of the encoder main loop on the accumulated `(image,
width_count)` state, given an already formatted column:
when `width_count == 0` the two header columns are appended first and
`width_count` becomes 2; the data column is appended; `width_count`
resets to 0 on reaching 512. -/
def pure_step (st : List (List Char) × Nat) (col : List Char) :
    List (List Char) × Nat :=
  let st2 := if st.2 = 0 then (st.1 ++ [header1, header2], 2) else st
  let cols := st2.1 ++ [col]
  let wc := st2.2 + 1
  (cols, if wc = 512 then 0 else wc)

/-- One iteration of the encoder main loop for a chord: format the column
(`format_col`) and append it; a raised `IndexError` (`none`) aborts the
whole run. -/
def encode_step (st : Option (List (List Char) × Nat)) (c : Chord) :
    Option (List (List Char) × Nat) :=
  st.bind fun s => (format_col c.time c.velocity c.notes).map (pure_step s)

/-- The encoder main loop over a chord sequence, returning the flat column
list `image`. -/
def encode_cols (chords : List Chord) : Option (List (List Char)) :=
  (chords.foldl encode_step (some ([], 0))).map Prod.fst

/-- A MIDI message as the encoder loop sees it: `mido` message type,
note number, velocity, and delay (the source converts the float delay by
`round(msg.time * 1000)`; delays are modelled directly in integral
milliseconds). -/
structure Msg where
  mtype : String
  note : Nat
  velocity : Nat
  time_ms : Nat
  deriving DecidableEq, Repr

/-- One iteration of the source's `for msg in msgs` loop: only messages
with `msg.type == "note_on"` produce a column (with the single note
`[msg.note]`); every other message is only logged. -/
def msg_step (st : Option (List (List Char) × Nat)) (m : Msg) :
    Option (List (List Char) × Nat) :=
  if m.mtype = "note_on" then
    encode_step st ⟨m.time_ms, m.velocity, [m.note]⟩
  else st

/-- The encoder main loop over raw MIDI messages. -/
def encode_msgs (msgs : List Msg) : Option (List (List Char)) :=
  (msgs.foldl msg_step (some ([], 0))).map Prod.fst

/-! ## Image assembly (`format_cols_to_img` and the `images_code` loop) -/

/-- An image block: the vertical stack of four 512-column chunks, each
rendered as 120 rows of digit cells (`len(cols[0]) == 120`); a chunk past
the end of the column list renders as 120 empty rows. -/
abbrev Img := List (List (List Char))

/-- The `images_code` loop: one image block per 2048 columns, each block
stacking the four 512-column chunks `cols[j:j+512]` for
`j = i, i+512, i+1024, i+1536`. -/
def toBlocks (cols : List (List Char)) : List Img :=
  if h : cols = [] then []
  else
    [cols.take 512, (cols.drop 512).take 512,
     (cols.drop 1024).take 512, (cols.drop 1536).take 512]
      :: toBlocks (cols.drop 2048)
  termination_by cols.length
  decreasing_by
    simp only [List.length_drop]
    exact Nat.sub_lt (List.length_pos.mpr h) (by decide)

/-- The full encoder: chord sequence to image blocks. -/
def encode_images (chords : List Chord) : Option (List Img) :=
  (encode_cols chords).map toBlocks

/-! ## The decoder (generated TypeScript) -/

/-- `Image.getPixel(x, y)`: the digit value of the cell at column `x` of
row `y`.  A read outside the image, or at a cell a ragged short row does
not cover, yields 0 (MakeCode's out-of-range sentinel).  Row `y` falls in
chunk `y / 120`, at row `y % 120` of that chunk's columns. -/
def getPixel (img : Img) (x y : Int) : Nat :=
  if x < 0 ∨ y < 0 then 0
  else
    match img[y.toNat / 120]? with
    | none => 0
    | some chunk =>
      match chunk[x.toNat]? with
      | none => 0
      | some col =>
        match col[y.toNat % 120]? with
        | none => 0
        | some c => hexCharVal c

/-- Height of an image block: 120 rows per stacked chunk. -/
def img_height (img : Img) : Nat := 120 * img.length

/-- Width of an image block: the widest row (`chunk.length` cells per row
of a chunk). -/
def img_width (img : Img) : Nat := (img.map List.length).foldr max 0

/-- The transition scan of `recompute_frames` on one column of pixels:
walking `y` from 0 to `height - 1`, a change from the previous pixel marks
a new region start; otherwise a change to the next pixel ends the region,
and a region of color 1 (white, the note band) is recorded as a frame
`[start, y]`. -/
def scan_frames_core (px : Int → Nat) (height : Nat) : List (Nat × Nat) :=
  ((List.range height).foldl (fun (st : Nat × List (Nat × Nat)) (y : Nat) =>
    let prev := px ((y : Int) - 1)
    let curr := px (y : Int)
    let next := px ((y : Int) + 1)
    if prev ≠ curr then (y, st.2)
    else if next ≠ curr then
      if curr = 1 then (st.1, st.2 ++ [(st.1, y)]) else st
    else st) (0, [])).2

/-- TypeScript `recompute_frames` restricted to one image: the transition
scan of column 0 over the whole image height. -/
def scan_frames (img : Img) : List (Nat × Nat) :=
  scan_frames_core (fun y => getPixel img 0 y) (img_height img)

/-- The six band bounds located by `recompute_frame`; a band whose color
never appears in the scanned column stays `undefined` (`none`). -/
structure Bands where
  duration_start : Option Nat
  duration_stop : Option Nat
  velocity_start : Option Nat
  velocity_stop : Option Nat
  note_start : Option Nat
  note_stop : Option Nat
  deriving DecidableEq, Repr

/-- The transition scan of `recompute_frame` on one column of pixels over
`[start_y, stop_y]`: color 1 bounds the note band, color 2 the velocity
band, color 3 the duration band; any other color is ignored. -/
def recompute_frame_core (px : Int → Nat) (start_y stop_y : Nat) : Bands :=
  (List.range' start_y (stop_y + 1 - start_y)).foldl (fun (b : Bands) (y : Nat) =>
    let prev := px ((y : Int) - 1)
    let curr := px (y : Int)
    let next := px ((y : Int) + 1)
    if prev ≠ curr then
      if curr = 1 then { b with note_start := some y }
      else if curr = 2 then { b with velocity_start := some y }
      else if curr = 3 then { b with duration_start := some y }
      else b
    else if next ≠ curr then
      if curr = 1 then { b with note_stop := some y }
      else if curr = 2 then { b with velocity_stop := some y }
      else if curr = 3 then { b with duration_stop := some y }
      else b
    else b) ⟨none, none, none, none, none, none⟩

/-- TypeScript `recompute_frame`: the transition scan of column 1
(`frame_x = 1`) over the frame's vertical extent. -/
def recompute_frame (img : Img) (start_y stop_y : Nat) : Bands :=
  recompute_frame_core (fun y => getPixel img 1 y) start_y stop_y

/-- TypeScript `get_hex_val(x, start_y, stop_y)`: concatenate the pixel
digits of data column `x` (offset by 2 past the header columns) from
`start_y` to `stop_y` and parse as hex.  When either bound is `undefined`
the `for` loop guard is false, no digit is read, and `parseInt("0", 16)`
yields 0; an empty range likewise yields 0. -/
def get_hex_val (img : Img) (x : Nat) : Option Nat → Option Nat → Nat
  | some sy, some ey =>
    (List.range' sy (ey + 1 - sy)).foldl
      (fun (acc : Nat) (y : Nat) =>
        acc * 16 + getPixel img ((x : Int) + 2) (y : Int)) 0
  | _, _ => 0

/-- TypeScript `get_duration(x)`. -/
def get_duration (img : Img) (b : Bands) (x : Nat) : Nat :=
  get_hex_val img x b.duration_start b.duration_stop

/-- TypeScript `get_velocity(x)`. -/
def get_velocity (img : Img) (b : Bands) (x : Nat) : Nat :=
  get_hex_val img x b.velocity_start b.velocity_stop

/-- TypeScript `get_notes(x)`: the offsets `fake_y` within the note band
whose pixel in data column `x` is nonzero; with an `undefined` band bound
the loop never runs and the list is empty. -/
def get_notes (img : Img) (b : Bands) (x : Nat) : List Nat :=
  match b.note_start, b.note_stop with
  | some sy, some ey =>
    (List.range (ey + 1 - sy)).foldl (fun (acc : List Nat) (i : Nat) =>
      if getPixel img ((x : Int) + 2) ((sy : Int) + (i : Int)) ≠ 0 then
        acc ++ [i]
      else acc) []
  | _, _ => []

/-- What the frame player reads from one frame: for each data column
`x < frame_length` (with `frame_length = image width - 2`) the tuple of
duration, velocity and pressed notes, in column order. -/
def decode_frame (img : Img) (fr : Nat × Nat) : List Chord :=
  let b := recompute_frame img fr.1 fr.2
  (List.range (img_width img - 2)).map fun x =>
    ⟨get_duration img b x, get_velocity img b x, get_notes img b x⟩

/-- The full decode path: frames of every image in order, columns of every
frame in order. -/
def decode_images (imgs : List Img) : List Chord :=
  (imgs.map fun img => ((scan_frames img).map (decode_frame img)).flatten).flatten

/-! ## The playback driver (TypeScript `ArcadeMIDIInstructions`) -/

/-- One sounding entry of the driver's `_playing_notes` collection. -/
structure PlayingNote where
  frequency : Int
  velocity : Nat
  deriving DecidableEq, Repr

/-- The frequency the driver computes for a note index:
`get_frequency(note_num_to_name(note_index - 21))`, which evaluates to
`440 * 2 ** ((key_number - 49) / 12)`.  That map is strictly increasing in
`key_number`, so equality of computed frequencies is equality of key
numbers; the frequency is therefore modelled by the key number itself
(faithful on the driver's note range, where the name string round-trips). -/
def computed_frequency (note_index : Int) : Int :=
  let num := note_index - 21
  let octave : Int := -((-num).ediv 12)
  let key0 : Int := num.emod 12
  if key0 < 3 then key0 + 12 + (octave - 1) * 12 + 1
  else key0 + (octave - 1) * 12 + 1

/-- The `velocity == 0` branch of `note_on`: scan `_playing_notes` from
the front, splice out the first entry with the computed frequency, and
break. -/
def remove_first_matching : List PlayingNote → Int → List PlayingNote
  | [], _ => []
  | n :: rest, f =>
    if n.frequency = f then rest else n :: remove_first_matching rest f

/-- TypeScript `note_on(note_index, velocity, time, play_now)` restricted
to its effect on `_playing_notes` (the `time > 0 && play_now` branch only
emits play instructions and pauses; it never touches the collection). -/
def note_on (playing : List PlayingNote) (note_index : Int)
    (velocity : Nat) : List PlayingNote :=
  let frequency := computed_frequency note_index
  if velocity = 0 then remove_first_matching playing frequency
  else playing ++ [⟨frequency, velocity⟩]

/-! ## Specification-side closed forms and concrete inputs -/

/-- The flag character a pressed note slot receives in `format_col`. -/
def sharp_flag (p : Nat) : Char :=
  if is_sharp ((p : Int) - 21) then 'f' else '1'

/-- Closed form of the 109 note-flag slots of a column. -/
def flags_of (notes : List Nat) : List Char :=
  (List.range 109).map fun p => if p ∈ notes then sharp_flag p else '0'

/-- Closed form of a successfully formatted column. -/
def col_of (c : Chord) : List Char :=
  format_hex c.time 8 ++ format_hex c.velocity 2 ++ flags_of c.notes ++ ['0']

/-- `format_col` lifted to a chord. -/
def colM (c : Chord) : Option (List Char) :=
  format_col c.time c.velocity c.notes

/-- `List.mapM` specialised to `Option`, with definitional unfolding. -/
def mapO (f : α → Option β) : List α → Option (List β)
  | [] => some []
  | a :: l => (f a).bind fun b => (mapO f l).map (b :: ·)

/-- The chord sequence split into frame payloads: the `width_count` logic
admits 510 data columns per frame (512 total with the two headers). -/
def chunk510 (l : List Chord) : List (List Chord) :=
  if h : l = [] then []
  else l.take 510 :: chunk510 (l.drop 510)
  termination_by l.length
  decreasing_by
    simp only [List.length_drop]
    exact Nat.sub_lt (List.length_pos.mpr h) (by decide)

/-- The encoder's frame structure: each frame is its two header columns
followed by its formatted data columns. -/
def encode_frames (chords : List Chord) : Option (List (List (List Char))) :=
  mapO (fun ch => (mapO colM ch).map fun data => header1 :: header2 :: data)
    (chunk510 chords)

/-- Pixel profile of a header-1 column sitting alone in rows 0-119 of an
image: color 1 on rows 0-118, 0 everywhere else. -/
def p_one_frame : Int → Nat :=
  fun y => if 0 ≤ y ∧ y < 119 then 1 else 0

/-- Pixel profile of header-1 columns in rows 0-119 and 120-239 (two
stacked frames). -/
def p_two_frames : Int → Nat :=
  fun y => if (0 ≤ y ∧ y < 119) ∨ (120 ≤ y ∧ y < 239) then 1 else 0

/-- Pixel profile of a header-2 column sitting in rows 0-119. -/
def q_zero : Int → Nat :=
  fun y =>
    if y < 0 then 0
    else if y < 8 then 3
    else if y < 10 then 2
    else if y < 119 then 1
    else 0

/-- A chord with no notes, zero delay and zero velocity. -/
def cex_chord : Chord := ⟨0, 0, []⟩

/-- 511 chords: one more than a single frame's 510-column capacity. -/
def cex511 : List Chord := List.replicate 511 cex_chord

/-- The spec's scenario event stream: two simultaneous note-ons (keys 39
and 43, velocity 80) followed by their note-offs. -/
def scenario_msgs : List Msg :=
  [⟨"note_on", 39, 80, 0⟩, ⟨"note_on", 43, 80, 0⟩,
   ⟨"note_off", 39, 0, 500⟩, ⟨"note_off", 43, 0, 0⟩]

/-- An image whose frame scan finds a note region but whose second column
carries only color 1: the duration and velocity bands can never be
classified.  A third, all-zero column gives the frame one data column. -/
def bad_img : Img :=
  [[List.replicate 119 '1' ++ ['0'],
    List.replicate 119 '1' ++ ['0'],
    List.replicate 120 '0']]

/-- The digit value of cell `(x, r)` inside a single chunk (0 when the
chunk has no column `x` or the column no row `r`); `getPixel` dispatches
on `y / 120` to the chunk and reads cell `(x, y % 120)`. -/
def cellVal (chunk : List (List Char)) (x r : Nat) : Nat :=
  match chunk[x]? with
  | none => 0
  | some col =>
    match col[r]? with
    | none => 0
    | some c => hexCharVal c

/-! # Basic lemmas on hex formatting -/

theorem hexCharVal_hexDigitChar : ∀ n < 16, hexCharVal (hexDigitChar n) = n := by
  decide

theorem hexDigitsGo_acc :
    ∀ (fuel n : Nat) (acc : List Char),
      hexDigitsGo fuel n acc = hexDigitsGo fuel n [] ++ acc := by
  intro fuel
  induction fuel with
  | zero => intro n acc; simp [hexDigitsGo]
  | succ fuel ih =>
    intro n acc
    rw [hexDigitsGo, hexDigitsGo]
    by_cases h : n < 16
    · simp [h]
    · rw [if_neg h, if_neg h, ih (n / 16) (hexDigitChar (n % 16) :: acc),
        ih (n / 16) [hexDigitChar (n % 16)], List.append_assoc]
      rfl

theorem hexDigitsGo_fuel_inv :
    ∀ (n f1 f2 : Nat) (acc : List Char), 1 ≤ f1 → 1 ≤ f2 →
      n < 16 ^ f1 → n < 16 ^ f2 →
      hexDigitsGo f1 n acc = hexDigitsGo f2 n acc := by
  intro n
  induction n using Nat.strong_induction_on with
  | _ n ih =>
    intro f1 f2 acc h1 h2 hn1 hn2
    obtain ⟨a, rfl⟩ : ∃ a, f1 = a + 1 := ⟨f1 - 1, by omega⟩
    obtain ⟨b, rfl⟩ : ∃ b, f2 = b + 1 := ⟨f2 - 1, by omega⟩
    rw [hexDigitsGo, hexDigitsGo]
    by_cases h : n < 16
    · simp [h]
    · rw [if_neg h, if_neg h]
      have ha : 1 ≤ a := by
        by_contra hc
        have : a = 0 := by omega
        subst this
        simp at hn1
        omega
      have hb : 1 ≤ b := by
        by_contra hc
        have : b = 0 := by omega
        subst this
        simp at hn2
        omega
      have hda : n / 16 < 16 ^ a := by
        apply (Nat.div_lt_iff_lt_mul (by decide)).mpr
        calc n < 16 ^ (a + 1) := hn1
        _ = 16 ^ a * 16 := pow_succ 16 a
      have hdb : n / 16 < 16 ^ b := by
        apply (Nat.div_lt_iff_lt_mul (by decide)).mpr
        calc n < 16 ^ (b + 1) := hn2
        _ = 16 ^ b * 16 := pow_succ 16 b
      exact ih (n / 16) (Nat.div_lt_self (by omega) (by decide)) a b _
        ha hb hda hdb

theorem hexDigits_eq_of_lt {n : Nat} (h : n < 16) :
    hexDigits n = [hexDigitChar n] := by
  rw [hexDigits, hexDigitsGo, if_pos h]

theorem hexDigits_eq_of_ge {n : Nat} (h : ¬n < 16) :
    hexDigits n = hexDigits (n / 16) ++ [hexDigitChar (n % 16)] := by
  rw [hexDigits, hexDigits, hexDigitsGo, if_neg h,
    hexDigitsGo_acc n (n / 16) [hexDigitChar (n % 16)]]
  congr 1
  have hp1 : n < 16 ^ n := Nat.lt_pow_self (by decide) n
  have hp2 : n / 16 < 16 ^ (n / 16) := Nat.lt_pow_self (by decide) (n / 16)
  exact hexDigitsGo_fuel_inv (n / 16) n (n / 16 + 1) [] (by omega) (by omega)
    (lt_trans (Nat.div_lt_self (by omega) (by decide)) hp1)
    (lt_of_lt_of_le hp2 (Nat.pow_le_pow_right (by decide) (by omega)))

theorem fromHexVals_hexDigits (n : Nat) : fromHexVals (hexDigits n) = n := by
  induction n using Nat.strong_induction_on with
  | _ n ih =>
    by_cases h : n < 16
    · rw [hexDigits_eq_of_lt h]
      simp [fromHexVals, hexCharVal_hexDigitChar n h]
    · rw [hexDigits_eq_of_ge h]
      rw [fromHexVals, List.foldl_append]
      have h1 := ih (n / 16) (Nat.div_lt_self (by omega) (by decide))
      rw [fromHexVals] at h1
      simp [h1, hexCharVal_hexDigitChar (n % 16) (Nat.mod_lt _ (by decide))]
      omega

theorem fromHexVals_zero_pad (k : Nat) (l : List Char) :
    fromHexVals (List.replicate k '0' ++ l) = fromHexVals l := by
  induction k with
  | zero => simp
  | succ k ih =>
    rw [List.replicate_succ, List.cons_append, fromHexVals, List.foldl_cons]
    have h0 : hexCharVal '0' = 0 := by decide
    rw [h0]
    exact ih

theorem fromHexVals_format_hex (n m : Nat) : fromHexVals (format_hex n m) = n := by
  rw [format_hex]
  exact (fromHexVals_zero_pad _ _).trans (fromHexVals_hexDigits n)

theorem hexDigits_length_pos (n : Nat) : 1 ≤ (hexDigits n).length := by
  by_cases h : n < 16
  · rw [hexDigits_eq_of_lt h]; simp
  · rw [hexDigits_eq_of_ge h]; simp

theorem hexDigits_length_le :
    ∀ n k, 1 ≤ k → n < 16 ^ k → (hexDigits n).length ≤ k := by
  intro n
  induction n using Nat.strong_induction_on with
  | _ n ih =>
    intro k hk hlt
    by_cases h : n < 16
    · rw [hexDigits_eq_of_lt h]; simpa using hk
    · rw [hexDigits_eq_of_ge h]
      have hk2 : 2 ≤ k := by
        by_contra hc
        have hk1 : k = 1 := by omega
        subst hk1
        simp at hlt
        omega
      have hpow : 16 ^ k = 16 ^ (k - 1) * 16 := by
        conv_lhs => rw [show k = (k - 1) + 1 by omega]
        rw [pow_succ]
      have hdiv : n / 16 < 16 ^ (k - 1) :=
        (Nat.div_lt_iff_lt_mul (by decide)).mpr (by omega)
      have := ih (n / 16) (Nat.div_lt_self (by omega) (by decide))
        (k - 1) (by omega) hdiv
      simp only [List.length_append, List.length_cons, List.length_nil]
      omega

theorem hexDigits_length_ge :
    ∀ n k, 16 ^ k ≤ n → k + 1 ≤ (hexDigits n).length := by
  intro n
  induction n using Nat.strong_induction_on with
  | _ n ih =>
    intro k hle
    match k with
    | 0 => exact hexDigits_length_pos n
    | k + 1 =>
      have h16 : ¬n < 16 := by
        have : (16 : Nat) ≤ 16 ^ (k + 1) := by
          calc (16 : Nat) = 16 ^ 1 := (pow_one 16).symm
          _ ≤ 16 ^ (k + 1) := Nat.pow_le_pow_right (by decide) (by omega)
        omega
      rw [hexDigits_eq_of_ge h16]
      have hdiv : 16 ^ k ≤ n / 16 := by
        rw [Nat.le_div_iff_mul_le (by decide)]
        calc 16 ^ k * 16 = 16 ^ (k + 1) := (pow_succ 16 k).symm
        _ ≤ n := hle
      have := ih (n / 16) (Nat.div_lt_self (by omega) (by decide)) k hdiv
      simp only [List.length_append, List.length_cons, List.length_nil]
      omega

theorem format_hex_length (n m : Nat) :
    (format_hex n m).length = (m - (hexDigits n).length) + (hexDigits n).length := by
  rw [format_hex]
  simp

theorem format_hex_length_eq {n m : Nat} (h1 : 1 ≤ m) (h2 : n < 16 ^ m) :
    (format_hex n m).length = m := by
  rw [format_hex_length]
  have := hexDigits_length_le n m h1 h2
  omega

theorem format_hex_length_ge_min (n m : Nat) : m ≤ (format_hex n m).length := by
  rw [format_hex_length]; omega

/-! # Lemmas on the column formatter -/

theorem set_notes_eq_none_iff :
    ∀ (notes : List Nat) (l : List Char),
      (set_notes l notes = none ↔ ∃ n ∈ notes, l.length ≤ n) := by
  intro notes
  induction notes with
  | nil => intro l; simp [set_notes]
  | cons n rest ih =>
    intro l
    by_cases h : n < l.length
    · rw [set_notes, set_note, if_pos h]
      simp only [Option.some_bind]
      rw [ih]
      simp only [List.length_set, List.mem_cons]
      constructor
      · rintro ⟨m, hm, hlen⟩
        exact ⟨m, Or.inr hm, hlen⟩
      · rintro ⟨m, hm | hm, hlen⟩
        · subst hm; omega
        · exact ⟨m, hm, hlen⟩
    · rw [set_notes, set_note, if_neg h]
      simp only [Option.none_bind, true_iff]
      exact ⟨n, by simp, by omega⟩

theorem set_notes_some_spec :
    ∀ (notes : List Nat) (l l2 : List Char),
      set_notes l notes = some l2 →
      l2.length = l.length ∧
        ∀ i, i < l.length →
          l2[i]? = if i ∈ notes then some (sharp_flag i) else l[i]? := by
  intro notes
  induction notes with
  | nil =>
    intro l l2 h
    simp only [set_notes, Option.some_inj] at h
    subst h
    simp
  | cons n rest ih =>
    intro l l2 h
    rw [set_notes] at h
    cases hset : set_note l n (if is_sharp ((n : Int) - 21) then 'f' else '1') with
    | none => rw [hset] at h; simp at h
    | some l1 =>
      rw [hset] at h
      simp only [Option.some_bind] at h
      have hn : n < l.length := by
        by_contra hc
        rw [set_note, if_neg hc] at hset
        exact Option.noConfusion hset
      have hl1 : l1 = l.set n (if is_sharp ((n : Int) - 21) then 'f' else '1') := by
        rw [set_note, if_pos hn] at hset
        exact (Option.some_inj.mp hset).symm
      obtain ⟨hl2len, hget⟩ := ih l1 l2 h
      have hl1len : l1.length = l.length := by rw [hl1, List.length_set]
      refine ⟨by rw [hl2len, hl1len], ?_⟩
      intro i hi
      rw [hget i (by omega)]
      by_cases hmem : i ∈ rest
      · simp [hmem]
      · by_cases hin : i = n
        · subst hin
          simp only [hmem, if_false, List.mem_cons, true_or, if_true, hl1]
          rw [List.getElem?_set_eq_of_lt _ hn]
          rfl
        · simp only [hmem, if_false, List.mem_cons, hin, false_or, hl1]
          rw [List.getElem?_set_ne (by omega)]

theorem flags_of_length (notes : List Nat) : (flags_of notes).length = 109 := by
  rw [flags_of]; simp

theorem format_col_eq_col_of {c : Chord} (h : ∀ p ∈ c.notes, p < 109) :
    colM c = some (col_of c) := by
  have h109 : (88 + 21 : Nat) = 109 := by norm_num
  cases hs : set_notes (List.replicate (88 + 21) '0') c.notes with
  | none =>
    rw [set_notes_eq_none_iff] at hs
    obtain ⟨n, hn, hlen⟩ := hs
    simp only [List.length_replicate] at hlen
    exact absurd (h n hn) (by omega)
  | some l2 =>
    obtain ⟨hlen, hget⟩ := set_notes_some_spec _ _ _ hs
    simp only [List.length_replicate] at hlen hget
    have : l2 = flags_of c.notes := by
      apply List.ext_getElem?
      intro i
      by_cases hi : i < 109
      · rw [hget i (by omega)]
        rw [flags_of]
        rw [List.getElem?_map]
        rw [List.getElem?_range hi]
        simp only [Option.map_some']
        by_cases hm : i ∈ c.notes
        · simp [hm]
        · rw [if_neg hm, if_neg hm, List.getElem?_replicate,
            if_pos (show i < 88 + 21 by omega)]
      · rw [List.getElem?_eq_none (by omega), List.getElem?_eq_none (by rw [flags_of_length]; omega)]
    rw [colM, format_col, hs]
    simp only [Option.map_some', Option.some_inj]
    rw [this, col_of]

/-! # C9: totality domain of the column formatter -/

/-- C9 — confirmed.  `format_col` raises (returns `none`) exactly when
some note is at least 109 (the flag array has `88 + 21 = 109` slots), and
it accepts every note in `[0, 108]`: in particular notes in `[88, 108]`,
beyond the spec's 0-87 piano-key range, are accepted, so that range is
neither enforced by the encoder nor sufficient to describe its domain. -/
theorem format_col_totality :
    (∀ (t v : Nat) (notes : List Nat),
        (format_col t v notes = none ↔ ∃ n ∈ notes, 109 ≤ n)) ∧
    (format_col 0 0 [100]).isSome = true ∧ (format_col 0 0 [109]).isSome = false := by
  refine ⟨?_, by decide, by decide⟩
  intro t v notes
  rw [format_col]
  rw [Option.map_eq_none']
  rw [set_notes_eq_none_iff]
  simp [List.length_replicate]

/-! # C4: out-of-range values are not rejected; the column overflows -/

/-- C4 — corrected.  The encoder performs no range check: `format_hex`
only left-pads and never truncates, so a velocity above 255 or an onset
delay above 0xFFFFFFFF ms makes the corresponding field grow beyond its
width and the column longer than 120 characters (no well-formed
120-character column results), instead of raising an explicit range
error. -/
theorem format_col_overflow (t v : Nat) (notes : List Nat)
    (hn : ∀ n ∈ notes, n < 109) (hover : 255 < v ∨ 4294967295 < t) :
    ∃ col, format_col t v notes = some col ∧ 120 < col.length := by
  have h := format_col_eq_col_of (c := ⟨t, v, notes⟩) hn
  rw [colM] at h
  refine ⟨col_of ⟨t, v, notes⟩, h, ?_⟩
  rw [col_of]
  simp only [List.length_append, flags_of_length, List.length_cons,
    List.length_nil]
  have h8 : 8 ≤ (format_hex t 8).length := format_hex_length_ge_min t 8
  have h2 : 2 ≤ (format_hex v 2).length := format_hex_length_ge_min v 2
  cases hover with
  | inl hv =>
    have : 2 + 1 ≤ (hexDigits v).length :=
      hexDigits_length_ge v 2 (by omega)
    have := format_hex_length v 2
    omega
  | inr ht =>
    have : 8 + 1 ≤ (hexDigits t).length :=
      hexDigits_length_ge t 8 (by omega)
    have := format_hex_length t 8
    omega

/-- Witness for C4's theorem at velocity 256. -/
theorem format_col_overflow_witness :
    ∃ col, format_col 0 256 [] = some col ∧ 120 < col.length :=
  format_col_overflow 0 256 [] (by simp) (by omega)

/-- Counterexample to C4 as stated: at velocity 256 the encoder does not
reject the value — a column is produced (no error), 121 characters long
because the velocity field silently widened to three digits. -/
theorem format_col_overflow_cex :
    (format_col 0 256 []).isSome = true ∧
    (format_col 0 256 []).elim 0 List.length = 121 := by
  constructor
  · decide
  · decide

/-! # C8: note_on removes the first matching entry or appends -/

theorem remove_first_matching_append (l1 l2 : List PlayingNote)
    (e : PlayingNote) (f : Int) (h1 : ∀ m ∈ l1, m.frequency ≠ f)
    (h2 : e.frequency = f) :
    remove_first_matching (l1 ++ e :: l2) f = l1 ++ l2 := by
  induction l1 with
  | nil => simp [remove_first_matching, h2]
  | cons a rest ih =>
    rw [List.cons_append, remove_first_matching, if_neg (h1 a (by simp)),
      ih fun m hm => h1 m (by simp [hm])]
    rfl

theorem remove_first_matching_no_match (l : List PlayingNote) (f : Int)
    (h : ∀ m ∈ l, m.frequency ≠ f) :
    remove_first_matching l f = l := by
  induction l with
  | nil => rfl
  | cons a rest ih =>
    rw [remove_first_matching, if_neg (h a (by simp)),
      ih fun m hm => h m (by simp [hm])]

theorem remove_first_matching_cases (l : List PlayingNote) (f : Int) :
    remove_first_matching l f = l ∨
      ∃ i, i < l.length ∧ remove_first_matching l f = l.eraseIdx i := by
  induction l with
  | nil => left; rfl
  | cons a rest ih =>
    by_cases ha : a.frequency = f
    · right
      exact ⟨0, by simp, by rw [remove_first_matching, if_pos ha]; simp⟩
    · rcases ih with h | ⟨i, hi, he⟩
      · left
        rw [remove_first_matching, if_neg ha, h]
      · right
        refine ⟨i + 1, by simpa using hi, ?_⟩
        rw [remove_first_matching, if_neg ha, he, List.eraseIdx_cons_succ]

theorem note_on_velocity_zero (l : List PlayingNote) (idx : Int) :
    note_on l idx 0 = remove_first_matching l (computed_frequency idx) := rfl

/-- C8 — confirmed.  With velocity 0, `note_on` removes exactly the first
sounding entry whose frequency equals the frequency computed for the note
index (entries before it, none of which match, and entries after it are
kept); with nonzero velocity it appends a new entry and removes nothing. -/
theorem note_on_first_match_semantics :
    (∀ (l1 l2 : List PlayingNote) (e : PlayingNote) (idx : Int),
        (∀ m ∈ l1, m.frequency ≠ computed_frequency idx) →
        e.frequency = computed_frequency idx →
        note_on (l1 ++ e :: l2) idx 0 = l1 ++ l2) ∧
    (∀ (l : List PlayingNote) (idx : Int) (v : Nat), v ≠ 0 →
        note_on l idx v = l ++ [⟨computed_frequency idx, v⟩]) := by
  constructor
  · intro l1 l2 e idx h1 h2
    rw [note_on_velocity_zero]
    exact remove_first_matching_append l1 l2 e _ h1 h2
  · intro l idx v hv
    simp [note_on, hv]

/-- Witness for C8's theorem: removing the middle entry (the first whose
frequency matches key number 1, computed for note index 21), and
appending at nonzero velocity. -/
theorem note_on_first_match_semantics_witness :
    note_on [⟨0, 7⟩, ⟨1, 5⟩, ⟨2, 3⟩] 21 0 = [⟨0, 7⟩, ⟨2, 3⟩] ∧
    note_on [] 21 5 = [⟨1, 5⟩] := by
  constructor
  · exact note_on_first_match_semantics.1 [⟨0, 7⟩] [⟨2, 3⟩] ⟨1, 5⟩ 21
      (by decide) (by decide)
  · exact (note_on_first_match_semantics.2 [] 21 5 (by decide)).trans (by decide)

/-! # C10: note_on with velocity 0 and no match changes nothing -/

/-- C10 — confirmed.  A velocity-0 `note_on` whose computed frequency
matches no sounding entry leaves the collection unchanged, and every
velocity-0 call removes at most one entry (the result is the list itself
or the list with exactly one index erased). -/
theorem note_on_no_match_frame :
    (∀ (l : List PlayingNote) (idx : Int),
        (∀ m ∈ l, m.frequency ≠ computed_frequency idx) →
        note_on l idx 0 = l) ∧
    (∀ (l : List PlayingNote) (idx : Int),
        note_on l idx 0 = l ∨
          ∃ i, i < l.length ∧ note_on l idx 0 = l.eraseIdx i) := by
  constructor
  · intro l idx h
    rw [note_on_velocity_zero]
    exact remove_first_matching_no_match l _ h
  · intro l idx
    rw [note_on_velocity_zero]
    exact remove_first_matching_cases l _

/-- Witness for C10's theorem: frequency key 5 matches nothing when the
computed key for note index 21 is 1. -/
theorem note_on_no_match_frame_witness :
    note_on [⟨5, 9⟩] 21 0 = [⟨5, 9⟩] :=
  note_on_no_match_frame.1 [⟨5, 9⟩] 21 (by decide)

/-! # C2: the encoder does not aggregate simultaneous events -/

/-- C2 — corrected.  The main loop emits one column per note-on message
(there is no chord grouping): on the scenario stream the two simultaneous
note-ons become two data columns after the two headers, each column
`"00000000" + "50"` followed by 109 flags with only its own key set —
and key 39 (name D#, an accidental) is set to `'f'`, not `'1'`; the
note-off messages produce no columns. -/
theorem scenario_one_column_per_event :
    encode_msgs scenario_msgs =
      some [header1, header2,
        List.replicate 8 '0' ++ ['5', '0'] ++
          ((List.replicate 109 '0').set 39 'f') ++ ['0'],
        List.replicate 8 '0' ++ ['5', '0'] ++
          ((List.replicate 109 '0').set 43 '1') ++ ['0']] := by
  decide

/-- Counterexample to C2 as stated: the scenario's encoding holds four
columns (two headers and two data columns), not the three a single
aggregated chord column would give, and the claimed single column with
positions 39 and 43 both set to `'1'` appears nowhere in the output. -/
theorem scenario_one_column_per_event_cex :
    ((encode_msgs scenario_msgs).getD []).length = 4 ∧
    (List.replicate 8 '0' ++ ['5', '0'] ++
        (((List.replicate 109 '0').set 39 '1').set 43 '1') ++ ['0']) ∉
      (encode_msgs scenario_msgs).getD [] := by
  constructor
  · decide
  · decide

/-! # C5: the header columns -/

/-- Counterexample to C5 as stated: the first header column is not the
value `'1'` for the whole 120-row frame height — its last row (row 119,
the terminator row) is `'0'`. -/
theorem headers_cex :
    ((encode_cols [cex_chord]).getD []).head? = some header1 ∧
    header1[119]? = some '0' ∧ header1[119]? ≠ some '1' := by
  refine ⟨by decide, by decide, by decide⟩

/-! # C6: pitch-class encoding of the note flags -/

/-- C6 — confirmed.  In a well-formed encoded column (fields within their
widths), the flag slot of a pressed note whose derived name
(`note_num_to_name (note - 21)`) contains `'#'` holds `'f'`, a pressed
natural note's slot holds `'1'`, and every unpressed slot holds `'0'`.
Slot `p` sits at row `10 + p`, after the 8 duration and 2 velocity
digits. -/
theorem pitch_class_encoding (t v : Nat) (notes : List Nat)
    (col : List Char) (p : Nat) (ht : t < 4294967296) (hv : v < 256)
    (hn : ∀ n ∈ notes, n < 109)
    (hcol : format_col t v notes = some col) (hp : p < 109) :
    col[10 + p]? =
      some (if p ∈ notes then
              (if is_sharp ((p : Int) - 21) then 'f' else '1')
            else '0') := by
  have h := format_col_eq_col_of (c := ⟨t, v, notes⟩) hn
  rw [colM] at h
  rw [hcol] at h
  have hc : col = col_of ⟨t, v, notes⟩ := Option.some_inj.mp h.symm |>.symm
  subst hc
  rw [col_of]
  dsimp only
  have h8 : (format_hex t 8).length = 8 :=
    format_hex_length_eq (by omega) (by norm_num; omega)
  have h2 : (format_hex v 2).length = 2 :=
    format_hex_length_eq (by omega) (by norm_num; omega)
  have hAB : (format_hex t 8 ++ format_hex v 2).length = 10 := by
    rw [List.length_append, h8, h2]
  have hABC :
      (format_hex t 8 ++ format_hex v 2 ++ flags_of notes).length = 119 := by
    rw [List.length_append, hAB, flags_of_length]
  rw [List.getElem?_append_left
    (show 10 + p < (format_hex t 8 ++ format_hex v 2 ++ flags_of notes).length
      by omega)]
  rw [List.getElem?_append_right
    (show (format_hex t 8 ++ format_hex v 2).length ≤ 10 + p by omega)]
  rw [hAB]
  have hidx : 10 + p - 10 = p := by omega
  rw [hidx, flags_of, List.getElem?_map, List.getElem?_range hp]
  simp only [Option.map_some']
  by_cases hm : p ∈ notes
  · simp [hm, sharp_flag]
  · simp [hm]

/-- Witness for C6's theorem: in the column for keys 39 and 43 at
velocity 80, slot 39 (D#, accidental) reads `'f'`, slot 43 (G, natural)
reads `'1'`, and slot 40 (unpressed) reads `'0'`. -/
theorem pitch_class_encoding_witness :
    ((format_col 0 80 [39, 43]).getD [])[49]? = some 'f' ∧
    ((format_col 0 80 [39, 43]).getD [])[53]? = some '1' ∧
    ((format_col 0 80 [39, 43]).getD [])[50]? = some '0' := by
  have hcol : format_col 0 80 [39, 43] =
      some ((format_col 0 80 [39, 43]).getD []) := by decide
  refine ⟨?_, ?_, ?_⟩
  · have h := pitch_class_encoding 0 80 [39, 43] _ 39 (by omega) (by omega)
      (by decide) hcol (by omega)
    rw [show (10 + 39 : Nat) = 49 by omega] at h
    rw [h]
    decide
  · have h := pitch_class_encoding 0 80 [39, 43] _ 43 (by omega) (by omega)
      (by decide) hcol (by omega)
    rw [show (10 + 43 : Nat) = 53 by omega] at h
    rw [h]
    decide
  · have h := pitch_class_encoding 0 80 [39, 43] _ 40 (by omega) (by omega)
      (by decide) hcol (by omega)
    rw [show (10 + 40 : Nat) = 50 by omega] at h
    rw [h]
    decide

/-! # C7: unclassifiable header bands are read silently, not reported -/

/-- C7 — corrected.  `recompute_frame` reports nothing: when the scanned
column never shows the duration color 3, the duration band bounds simply
stay `undefined`, and every subsequent `get_duration` read silently
returns 0 (the `for` loop guard on an `undefined` bound is false, so
`parseInt("0", 16)` is parsed) instead of a malformed-frame error. -/
theorem malformed_bands_silent_default (img : Img) (sy ey : Nat)
    (h : ∀ y ∈ List.range' sy (ey + 1 - sy), getPixel img 1 (y : Int) ≠ 3) :
    (recompute_frame img sy ey).duration_start = none ∧
    (recompute_frame img sy ey).duration_stop = none ∧
    ∀ x, get_duration img (recompute_frame img sy ey) x = 0 := by
  have key : (recompute_frame img sy ey).duration_start = none ∧
      (recompute_frame img sy ey).duration_stop = none := by
    rw [recompute_frame, recompute_frame_core]
    refine @List.foldlRecOn _ _
      (fun (b : Bands) => b.duration_start = none ∧ b.duration_stop = none)
      _ _ _ ⟨rfl, rfl⟩ ?_
    intro b hb y hy
    have hne := h y hy
    simp only
    by_cases h1 : getPixel img 1 ((y : Int) - 1) ≠ getPixel img 1 (y : Int)
    · rw [if_pos h1]
      by_cases hc1 : getPixel img 1 (y : Int) = 1
      · rw [if_pos hc1]; exact hb
      · rw [if_neg hc1]
        by_cases hc2 : getPixel img 1 (y : Int) = 2
        · rw [if_pos hc2]; exact hb
        · rw [if_neg hc2, if_neg hne]; exact hb
    · rw [if_neg h1]
      by_cases h2 : getPixel img 1 ((y : Int) + 1) ≠ getPixel img 1 (y : Int)
      · rw [if_pos h2]
        by_cases hc1 : getPixel img 1 (y : Int) = 1
        · rw [if_pos hc1]; exact hb
        · rw [if_neg hc1]
          by_cases hc2 : getPixel img 1 (y : Int) = 2
          · rw [if_pos hc2]; exact hb
          · rw [if_neg hc2, if_neg hne]; exact hb
      · rw [if_neg h2]; exact hb
  refine ⟨key.1, key.2, ?_⟩
  intro x
  rw [get_duration, key.1, key.2]
  rfl

/-- Witness for C7's theorem at the concrete malformed image: color 3
never appears in its second column, so the duration bounds stay unset and
the duration of data column 0 silently reads as 0. -/
theorem malformed_bands_silent_default_witness :
    (recompute_frame bad_img 0 118).duration_start = none ∧
    (recompute_frame bad_img 0 118).duration_stop = none ∧
    get_duration bad_img (recompute_frame bad_img 0 118) 0 = 0 := by
  have h := malformed_bands_silent_default bad_img 0 118 (by decide)
  exact ⟨h.1, h.2.1, h.2.2 0⟩

/-- Counterexample to C7 as stated: on `bad_img` the second-column scan
classifies only the note band (colors 3 and 2 are missing), yet decoding
reports no malformed-frame error — it silently produces one chord whose
duration and velocity read 0 and whose note list is empty. -/
theorem malformed_bands_cex :
    scan_frames bad_img = [(0, 118)] ∧
    recompute_frame bad_img 0 118 =
      ⟨none, none, none, none, some 0, some 118⟩ ∧
    decode_images [bad_img] = [⟨0, 0, []⟩] := by
  refine ⟨by decide, by decide, by decide⟩

/-! # Structure of the encoder main loop -/

theorem foldl_encode_step_none (l : List Chord) :
    List.foldl encode_step none l = none := by
  induction l with
  | nil => rfl
  | cons c rest ih => simpa [encode_step] using ih

theorem pure_step_shift (cols : List (List Char)) (wc : Nat)
    (col : List Char) :
    pure_step (cols, wc) col =
      (cols ++ (pure_step ([], wc) col).1, (pure_step ([], wc) col).2) := by
  rw [pure_step, pure_step]
  by_cases h : wc = 0
  · simp [h]
  · simp [h]

theorem foldl_encode_step_shift :
    ∀ (l : List Chord) (cols : List (List Char)) (wc : Nat),
      List.foldl encode_step (some (cols, wc)) l =
        (List.foldl encode_step (some ([], wc)) l).map
          fun s => (cols ++ s.1, s.2) := by
  intro l
  induction l with
  | nil => intro cols wc; simp
  | cons c rest ih =>
    intro cols wc
    rw [List.foldl_cons, List.foldl_cons, encode_step, encode_step]
    simp only [Option.some_bind]
    cases hc : format_col c.time c.velocity c.notes with
    | none => simp [foldl_encode_step_none]
    | some col =>
      simp only [Option.map_some']
      rw [pure_step_shift]
      rw [ih (cols ++ (pure_step ([], wc) col).1) (pure_step ([], wc) col).2]
      conv_rhs =>
        rw [show pure_step ([], wc) col =
            ((pure_step ([], wc) col).1, (pure_step ([], wc) col).2) from rfl]
        rw [ih (pure_step ([], wc) col).1 (pure_step ([], wc) col).2]
      rw [Option.map_map]
      congr 1
      funext s
      simp [List.append_assoc]

theorem foldl_encode_step_run :
    ∀ (l : List Chord) (cols : List (List Char)) (wc : Nat),
      2 ≤ wc → wc ≤ 511 → wc + l.length ≤ 512 →
      List.foldl encode_step (some (cols, wc)) l =
        (mapO colM l).map fun data =>
          (cols ++ data, if wc + l.length = 512 then 0 else wc + l.length) := by
  intro l
  induction l with
  | nil =>
    intro cols wc h2 h511 _
    simp only [List.foldl_nil, List.length_nil, Nat.add_zero, mapO]
    rw [if_neg (by omega)]
    simp
  | cons c rest ih =>
    intro cols wc h2 h511 hcap
    rw [List.foldl_cons, encode_step]
    simp only [Option.some_bind]
    rw [mapO]
    cases hc : colM c with
    | none => rw [colM] at hc; rw [hc]; simp [foldl_encode_step_none]
    | some col =>
      rw [colM] at hc; rw [hc]
      simp only [Option.map_some', Option.some_bind]
      have hps : pure_step (cols, wc) col =
          (cols ++ [col], if wc + 1 = 512 then 0 else wc + 1) := by
        rw [pure_step]
        simp [show ¬wc = 0 by omega]
      rw [hps]
      by_cases hfull : wc + 1 = 512
      · have hrest : rest = [] := by
          have hl := hcap
          rw [List.length_cons] at hl
          have : rest.length = 0 := by omega
          exact List.eq_nil_of_length_eq_zero this
        subst hrest
        rw [if_pos hfull]
        simp only [List.foldl_nil, mapO, Option.map_some', Option.some_bind,
          List.length_cons, List.length_nil]
        rw [if_pos (show wc + (0 + 1) = 512 by omega)]
      · rw [if_neg hfull]
        rw [ih (cols ++ [col]) (wc + 1) (by omega) (by omega)
          (by rw [List.length_cons] at hcap; omega)]
        rw [Option.map_map]
        congr 1
        funext data
        have harith : wc + 1 + rest.length = wc + (rest.length + 1) := by omega
        simp only [Function.comp, List.append_assoc, List.singleton_append,
          List.length_cons, harith]

theorem chunk510_nil : chunk510 [] = [] := by
  rw [chunk510]
  simp

theorem chunk510_cons {l : List Chord} (h : l ≠ []) :
    chunk510 l = l.take 510 :: chunk510 (l.drop 510) := by
  rw [chunk510]
  simp [h]

theorem mapO_eq_some_map {α β : Type} {f : α → Option β} {g : α → β} :
    ∀ {l : List α}, (∀ x ∈ l, f x = some (g x)) →
      mapO f l = some (l.map g) := by
  intro l
  induction l with
  | nil => intro _; rfl
  | cons a t ih =>
    intro h
    rw [mapO, h a (by simp), ih fun x hx => h x (by simp [hx])]
    rfl

theorem mapO_colM_valid {l : List Chord}
    (h : ∀ c ∈ l, ∀ p ∈ c.notes, p < 109) :
    mapO colM l = some (l.map col_of) :=
  mapO_eq_some_map fun c hc => format_col_eq_col_of (h c hc)

theorem encode_cols_single_frame (chords : List Chord)
    (h1 : 1 ≤ chords.length) (h510 : chords.length ≤ 510) :
    encode_cols chords =
      (mapO colM chords).map fun data => header1 :: header2 :: data := by
  obtain ⟨c, rest, rfl⟩ : ∃ c rest, chords = c :: rest := by
    cases chords with
    | nil => simp at h1
    | cons c rest => exact ⟨c, rest, rfl⟩
  rw [encode_cols, List.foldl_cons, encode_step]
  simp only [Option.some_bind]
  rw [mapO]
  cases hc : colM c with
  | none => rw [colM] at hc; rw [hc]; simp [foldl_encode_step_none]
  | some col =>
    rw [colM] at hc
    rw [hc]
    simp only [Option.map_some', Option.some_bind]
    have hps : pure_step ([], 0) col = ([header1, header2, col], 3) := by
      rw [pure_step]
      simp
    rw [hps]
    rw [foldl_encode_step_run rest [header1, header2, col] 3 (by omega)
      (by omega) (by rw [List.length_cons] at h510; omega)]
    rw [Option.map_map, Option.map_map]
    congr 1

theorem foldl_full_frame (l : List Chord) (hlen : l.length = 510) :
    List.foldl encode_step (some ([], 0)) l =
      (mapO colM l).map fun data => (header1 :: header2 :: data, 0) := by
  obtain ⟨c, rest, rfl⟩ : ∃ c rest, l = c :: rest := by
    cases l with
    | nil => simp at hlen
    | cons c rest => exact ⟨c, rest, rfl⟩
  rw [List.foldl_cons, encode_step]
  simp only [Option.some_bind]
  rw [mapO]
  cases hc : colM c with
  | none => rw [colM] at hc; rw [hc]; simp [foldl_encode_step_none]
  | some col =>
    rw [colM] at hc
    rw [hc]
    simp only [Option.map_some', Option.some_bind]
    have hps : pure_step ([], 0) col = ([header1, header2, col], 3) := by
      rw [pure_step]
      simp
    rw [hps]
    rw [List.length_cons] at hlen
    rw [foldl_encode_step_run rest [header1, header2, col] 3 (by omega)
      (by omega) (by omega)]
    rw [Option.map_map]
    congr 1
    funext data
    rw [if_pos (show 3 + rest.length = 512 by omega)]
    simp

theorem encode_cols_peel (chords : List Chord) (h : 510 < chords.length) :
    encode_cols chords =
      (mapO colM (chords.take 510)).bind fun data =>
        (encode_cols (chords.drop 510)).map fun rest =>
          (header1 :: header2 :: data) ++ rest := by
  have hsplit : List.foldl encode_step (some ([], 0)) chords =
      List.foldl encode_step
        (List.foldl encode_step (some ([], 0)) (chords.take 510))
        (chords.drop 510) := by
    rw [← List.foldl_append, List.take_append_drop]
  rw [encode_cols, hsplit,
    foldl_full_frame _ (by rw [List.length_take]; omega)]
  cases hm : mapO colM (chords.take 510) with
  | none => simp [foldl_encode_step_none]
  | some data =>
    simp only [Option.map_some', Option.some_bind]
    rw [foldl_encode_step_shift]
    rw [encode_cols, Option.map_map, Option.map_map]
    rfl

theorem encode_frames_nil : encode_frames [] = some [] := by
  rw [encode_frames, chunk510_nil]
  rfl

theorem encode_frames_cons {l : List Chord} (h : l ≠ []) :
    encode_frames l =
      ((mapO colM (l.take 510)).map
        fun data => header1 :: header2 :: data).bind fun fr =>
          (encode_frames (l.drop 510)).map fun frs => fr :: frs := by
  rw [encode_frames, chunk510_cons h, mapO, encode_frames]

theorem encode_cols_eq_frames :
    ∀ (chords : List Chord),
      encode_cols chords = (encode_frames chords).map List.flatten := by
  suffices H : ∀ (n : Nat) (chords : List Chord), chords.length = n →
      encode_cols chords = (encode_frames chords).map List.flatten by
    intro chords
    exact H chords.length chords rfl
  intro n
  induction n using Nat.strong_induction_on with
  | _ n ih =>
    intro chords hlen
    by_cases hnil : chords = []
    · subst hnil
      rw [encode_frames_nil]
      rfl
    · have hpos : 1 ≤ chords.length :=
        List.length_pos.mpr hnil
      by_cases hsmall : chords.length ≤ 510
      · rw [encode_cols_single_frame chords hpos hsmall]
        rw [encode_frames_cons hnil,
          List.take_of_length_le hsmall,
          List.drop_eq_nil_of_le hsmall, encode_frames_nil]
        cases hm : mapO colM chords with
        | none => simp
        | some data => simp
      · rw [encode_cols_peel chords (by omega)]
        rw [encode_frames_cons hnil]
        have ihd := ih (chords.drop 510).length
          (by rw [List.length_drop]; omega) (chords.drop 510) rfl
        cases hm : mapO colM (chords.take 510) with
        | none => simp
        | some data =>
          simp only [Option.map_some', Option.some_bind]
          rw [ihd]
          cases hef : encode_frames (chords.drop 510) with
          | none => simp
          | some frs => simp

theorem chunk510_length :
    ∀ (n : Nat) (l : List Chord), l.length = n →
      (chunk510 l).length = (l.length + 509) / 510 := by
  intro n
  induction n using Nat.strong_induction_on with
  | _ n ih =>
    intro l hlen
    by_cases hnil : l = []
    · subst hnil
      rw [chunk510_nil]
      simp
    · have hpos : 1 ≤ l.length := List.length_pos.mpr hnil
      rw [chunk510_cons hnil, List.length_cons,
        ih (l.drop 510).length (by rw [List.length_drop]; omega)
          (l.drop 510) rfl]
      rw [List.length_drop]
      omega

theorem chunk510_mem_bounds :
    ∀ (n : Nat) (l : List Chord), l.length = n →
      ∀ ch ∈ chunk510 l, ch ≠ [] ∧ ch.length ≤ 510 ∧ ∀ c ∈ ch, c ∈ l := by
  intro n
  induction n using Nat.strong_induction_on with
  | _ n ih =>
    intro l hlen ch hch
    by_cases hnil : l = []
    · subst hnil
      rw [chunk510_nil] at hch
      simp at hch
    · rw [chunk510_cons hnil] at hch
      have hpos : 1 ≤ l.length := List.length_pos.mpr hnil
      rcases List.mem_cons.mp hch with rfl | htail
      · refine ⟨?_, ?_, ?_⟩
        · intro hcon
          have := congrArg List.length hcon
          rw [List.length_take] at this
          simp only [List.length_nil] at this
          omega
        · rw [List.length_take]
          omega
        · intro c hc
          exact List.take_subset 510 l hc
      · obtain ⟨h1, h2, h3⟩ := ih (l.drop 510).length
          (by rw [List.length_drop]; omega) (l.drop 510) rfl ch htail
        exact ⟨h1, h2, fun c hc => List.drop_subset 510 l (h3 c hc)⟩

theorem chunk510_getLast :
    ∀ (n : Nat) (l : List Chord), l.length = n → l ≠ [] →
      ∃ ch, (chunk510 l).getLast? = some ch ∧
        ch.length = (if l.length % 510 = 0 then 510 else l.length % 510) := by
  intro n
  induction n using Nat.strong_induction_on with
  | _ n ih =>
    intro l hlen hnil
    have hpos : 1 ≤ l.length := List.length_pos.mpr hnil
    by_cases hsmall : l.length ≤ 510
    · rw [chunk510_cons hnil, List.drop_eq_nil_of_le hsmall, chunk510_nil]
      refine ⟨l.take 510, rfl, ?_⟩
      rw [List.length_take]
      by_cases h510 : l.length = 510
      · rw [if_pos (by omega)]
        omega
      · rw [if_neg (by omega)]
        omega
    · have hdrop_ne : l.drop 510 ≠ [] := by
        intro hcon
        have := congrArg List.length hcon
        rw [List.length_drop] at this
        simp at this
        omega
      obtain ⟨ch, hch, hchlen⟩ := ih (l.drop 510).length
        (by rw [List.length_drop]; omega) (l.drop 510) rfl hdrop_ne
      rw [chunk510_cons hnil]
      refine ⟨ch, ?_, ?_⟩
      · rw [List.getLast?_cons, hch]
        rfl
      · rw [hchlen, List.length_drop]
        have harith : (l.length - 510) % 510 = l.length % 510 := by omega
        rw [harith]

theorem encode_frames_closed {chords : List Chord}
    (hv : ∀ c ∈ chords, ∀ p ∈ c.notes, p < 109) :
    encode_frames chords =
      some ((chunk510 chords).map
        fun ch => header1 :: header2 :: ch.map col_of) := by
  rw [encode_frames]
  apply mapO_eq_some_map
  intro ch hch
  have hsub := (chunk510_mem_bounds chords.length chords rfl ch hch).2.2
  rw [mapO_colM_valid fun c hc => hv c (hsub c hc)]
  rfl

/-! # C3: chunking by 510 data columns per frame, not 512 -/

/-- C3 — corrected.  `width_count` counts the two header columns toward
the 512-column reset, so each frame holds at most 510 data columns (512
total): for `N` chords the encoder emits `ceil(N / 510)` frames, and the
final frame holds `N mod 510` data columns (510 when 510 divides `N`) —
not `ceil(N / 512)` frames of up to 512 data columns. -/
theorem chunking_frames (chords : List Chord) (hne : chords ≠ [])
    (hv : ∀ c ∈ chords, ∀ p ∈ c.notes, p < 109) :
    ∃ frames, encode_frames chords = some frames ∧
      encode_cols chords = some frames.flatten ∧
      frames.length = (chords.length + 509) / 510 ∧
      (∀ f ∈ frames, ∃ data, f = header1 :: header2 :: data ∧
        data.length ≤ 510) ∧
      ∃ lastf last_data, frames.getLast? = some lastf ∧
        lastf = header1 :: header2 :: last_data ∧
        last_data.length =
          (if chords.length % 510 = 0 then 510 else chords.length % 510) := by
  refine ⟨(chunk510 chords).map fun ch => header1 :: header2 :: ch.map col_of,
    encode_frames_closed hv, ?_, ?_, ?_, ?_⟩
  · rw [encode_cols_eq_frames, encode_frames_closed hv]
    rfl
  · rw [List.length_map]
    exact chunk510_length chords.length chords rfl
  · intro f hf
    obtain ⟨ch, hch, rfl⟩ := List.mem_map.mp hf
    refine ⟨ch.map col_of, rfl, ?_⟩
    rw [List.length_map]
    exact (chunk510_mem_bounds chords.length chords rfl ch hch).2.1
  · obtain ⟨ch, hch, hchlen⟩ := chunk510_getLast chords.length chords rfl hne
    refine ⟨header1 :: header2 :: ch.map col_of, ch.map col_of, ?_, rfl, ?_⟩
    · rw [List.getLast?_map, hch]
      rfl
    · rw [List.length_map]
      exact hchlen

/-- Witness for C3's theorem at a single chord: one frame with one data
column. -/
theorem chunking_frames_witness :
    ∃ frames, encode_frames [cex_chord] = some frames ∧
      encode_cols [cex_chord] = some frames.flatten ∧
      frames.length = (([cex_chord].length : Nat) + 509) / 510 ∧
      (∀ f ∈ frames, ∃ data, f = header1 :: header2 :: data ∧
        data.length ≤ 510) ∧
      ∃ lastf last_data, frames.getLast? = some lastf ∧
        lastf = header1 :: header2 :: last_data ∧
        last_data.length =
          (if ([cex_chord].length : Nat) % 510 = 0 then 510
           else ([cex_chord].length : Nat) % 510) :=
  chunking_frames [cex_chord] (by simp) (by simp [cex_chord])

/-- Counterexample to C3 as stated: 511 note-on events produce 2 frames
(511 exceeds one frame's 510-data-column capacity), while the claim's
`ceil(N / 512)` predicts a single frame; the encoder's output accordingly
holds 515 columns (511 data + 2 × 2 headers), not the 513 a single frame
would give. -/
theorem chunking_frames_cex :
    (encode_frames cex511).map List.length = some 2 ∧
    encode_cols cex511 = (encode_frames cex511).map List.flatten ∧
    (encode_cols cex511).map List.length = some 515 ∧
    (511 + 512 - 1) / 512 = 1 ∧ (2 : Nat) ≠ 1 ∧ (515 : Nat) ≠ 513 := by
  have hv : ∀ c ∈ cex511, ∀ p ∈ c.notes, p < 109 := by
    intro c hc
    rw [cex511] at hc
    rw [List.eq_of_mem_replicate hc]
    simp [cex_chord]
  have hchunk : chunk510 cex511 =
      [List.replicate 510 cex_chord, [cex_chord]] := by
    rw [chunk510_cons (by rw [cex511]; simp)]
    rw [cex511, List.take_replicate, List.drop_replicate]
    rw [chunk510_cons (by simp), List.take_replicate, List.drop_replicate]
    norm_num
    rw [chunk510_nil]
  refine ⟨?_, encode_cols_eq_frames cex511, ?_, by norm_num, by decide,
    by decide⟩
  · rw [encode_frames_closed hv, hchunk]
    rfl
  · rw [encode_cols_eq_frames cex511, encode_frames_closed hv, hchunk]
    simp only [Option.map_some', List.map_cons, List.map_nil,
      List.flatten_cons, List.flatten_nil, Option.some_inj]
    simp [List.length_append, List.length_map]

/-! # C5: header columns at each frame start -/

/-- C5 — corrected.  Whenever a new frame begins the encoder emits exactly
two header columns before any data column; header-2 is 8 `'3'` digits,
2 `'2'` digits, 109 `'1'` digits and a final `'0'` as claimed, but
header-1 is not `'1'` for the whole 120-row frame height: it is 119 `'1'`
digits followed by a final `'0'` (the terminator row, which is what ends
the note-color region in the decoder's frame scan). -/
theorem headers_per_frame (chords : List Chord) (hne : chords ≠ [])
    (hv : ∀ c ∈ chords, ∀ p ∈ c.notes, p < 109) :
    ∃ frames, encode_frames chords = some frames ∧
      encode_cols chords = some frames.flatten ∧ frames ≠ [] ∧
      (∀ f ∈ frames, f.take 2 = [header1, header2]) ∧
      header1 = List.replicate 119 '1' ++ ['0'] ∧
      header2 = List.replicate 8 '3' ++ List.replicate 2 '2' ++
        List.replicate 109 '1' ++ ['0'] := by
  refine ⟨(chunk510 chords).map fun ch => header1 :: header2 :: ch.map col_of,
    encode_frames_closed hv, ?_, ?_, ?_, by decide, by decide⟩
  · rw [encode_cols_eq_frames, encode_frames_closed hv]
    rfl
  · intro hcon
    rw [List.map_eq_nil_iff] at hcon
    have := chunk510_length chords.length chords rfl
    rw [hcon] at this
    have hpos : 1 ≤ chords.length := List.length_pos.mpr hne
    simp at this
    omega
  · intro f hf
    obtain ⟨ch, _, rfl⟩ := List.mem_map.mp hf
    rfl

/-- Witness for C5's theorem at a single chord. -/
theorem headers_per_frame_witness :
    ∃ frames, encode_frames [cex_chord] = some frames ∧
      encode_cols [cex_chord] = some frames.flatten ∧ frames ≠ [] ∧
      (∀ f ∈ frames, f.take 2 = [header1, header2]) ∧
      header1 = List.replicate 119 '1' ++ ['0'] ∧
      header2 = List.replicate 8 '3' ++ List.replicate 2 '2' ++
        List.replicate 109 '1' ++ ['0'] :=
  headers_per_frame [cex_chord] (by simp) (by simp [cex_chord])

/-! # Pixel reads on encoded image blocks -/

theorem toBlocks_nil : toBlocks [] = [] := by
  rw [toBlocks]
  simp

theorem toBlocks_single {cols : List (List Char)} (h1 : cols ≠ [])
    (h2 : cols.length ≤ 2048) :
    toBlocks cols =
      [[cols.take 512, (cols.drop 512).take 512,
        (cols.drop 1024).take 512, (cols.drop 1536).take 512]] := by
  rw [toBlocks]
  rw [dif_neg h1]
  rw [show cols.drop 2048 = [] from List.drop_eq_nil_of_le (by omega),
    toBlocks_nil]

theorem getPixel_nat (img : Img) (x y : Nat) :
    getPixel img (x : Int) (y : Int) =
      match img[y / 120]? with
      | none => 0
      | some chunk => cellVal chunk x (y % 120) := by
  rw [getPixel, if_neg (by omega)]
  rw [Int.toNat_ofNat, Int.toNat_ofNat]
  cases h : img[y / 120]? with
  | none => rfl
  | some chunk => rfl

theorem getPixel_four (c0 c1 c2 c3 : List (List Char)) (x y : Nat) :
    getPixel [c0, c1, c2, c3] (x : Int) (y : Int) =
      if y < 120 then cellVal c0 x y
      else if y < 240 then cellVal c1 x (y - 120)
      else if y < 360 then cellVal c2 x (y - 240)
      else if y < 480 then cellVal c3 x (y - 360)
      else 0 := by
  rw [getPixel_nat]
  by_cases h0 : y < 120
  · rw [if_pos h0, Nat.div_eq_of_lt h0, Nat.mod_eq_of_lt h0]
    rfl
  · rw [if_neg h0]
    by_cases h1 : y < 240
    · rw [if_pos h1, show y / 120 = 1 by omega, show y % 120 = y - 120 by omega]
      rfl
    · rw [if_neg h1]
      by_cases h2 : y < 360
      · rw [if_pos h2, show y / 120 = 2 by omega,
          show y % 120 = y - 240 by omega]
        rfl
      · rw [if_neg h2]
        by_cases h3 : y < 480
        · rw [if_pos h3, show y / 120 = 3 by omega,
            show y % 120 = y - 360 by omega]
          rfl
        · rw [if_neg h3]
          rw [List.getElem?_eq_none (by simp; omega)]

theorem getPixel_neg {img : Img} {x y : Int} (h : y < 0) :
    getPixel img x y = 0 := by
  rw [getPixel, if_pos (Or.inr h)]

theorem cellVal_nil (x r : Nat) : cellVal [] x r = 0 := by
  rw [cellVal]
  simp

theorem cellVal_header1 (rest : List (List Char)) (r : Nat) :
    cellVal (header1 :: rest) 0 r = if r < 119 then 1 else 0 := by
  rw [cellVal]
  simp only [List.getElem?_cons_zero]
  rw [header1]
  by_cases h : r < 119
  · rw [if_pos h]
    rw [List.getElem?_append_left (by simp [List.length_replicate]; omega)]
    rw [List.getElem?_replicate, if_pos (by omega)]
    rfl
  · rw [if_neg h]
    by_cases h119 : r = 119
    · subst h119
      rw [List.getElem?_append_right (by simp [List.length_replicate])]
      simp [List.length_replicate]
      rfl
    · rw [List.getElem?_eq_none
        (by simp [List.length_replicate]; omega)]

theorem cellVal_header2 (rest : List (List Char)) (r : Nat) :
    cellVal (header1 :: header2 :: rest) 1 r =
      if r < 8 then 3 else if r < 10 then 2 else if r < 119 then 1 else 0 := by
  rw [cellVal]
  simp only [List.getElem?_cons_succ, List.getElem?_cons_zero]
  rw [header2]
  by_cases h3 : r < 8
  · rw [if_pos h3]
    rw [List.getElem?_append_left (by
      simp [List.length_append, List.length_replicate]; omega)]
    rw [List.getElem?_append_left (by
      simp [List.length_append, List.length_replicate]; omega)]
    rw [List.getElem?_append_left (by simp [List.length_replicate]; omega)]
    rw [List.getElem?_replicate, if_pos h3]
    rfl
  · rw [if_neg h3]
    by_cases h2 : r < 10
    · rw [if_pos h2]
      rw [List.getElem?_append_left (by
        simp [List.length_append, List.length_replicate]; omega)]
      rw [List.getElem?_append_left (by
        simp [List.length_append, List.length_replicate]; omega)]
      rw [List.getElem?_append_right (by simp [List.length_replicate]; omega)]
      rw [List.length_replicate]
      rw [List.getElem?_replicate, if_pos (by omega)]
      rfl
    · rw [if_neg h2]
      by_cases h1 : r < 119
      · rw [if_pos h1]
        rw [List.getElem?_append_left (by
          simp [List.length_append, List.length_replicate]; omega)]
        rw [List.getElem?_append_right (by
          simp [List.length_append, List.length_replicate]; omega)]
        simp only [List.length_append, List.length_replicate]
        rw [List.getElem?_replicate, if_pos (by omega)]
        rfl
      · rw [if_neg h1]
        by_cases h119 : r = 119
        · subst h119
          rw [List.getElem?_append_right (by
            simp [List.length_append, List.length_replicate])]
          simp [List.length_append, List.length_replicate]
          rfl
        · rw [List.getElem?_eq_none (by
            simp [List.length_append, List.length_replicate]; omega)]

theorem pix0_one_frame (rest : List (List Char)) (y : Int) :
    getPixel [header1 :: rest, [], [], []] 0 y = p_one_frame y := by
  by_cases hneg : y < 0
  · rw [getPixel_neg hneg, p_one_frame,
      if_neg (show ¬(0 ≤ y ∧ y < 119) by omega)]
  · obtain ⟨n, rfl⟩ : ∃ n : Nat, y = (n : Int) :=
      ⟨y.toNat, (Int.toNat_of_nonneg (by omega)).symm⟩
    rw [show ((0 : Int)) = ((0 : Nat) : Int) from rfl, getPixel_four,
      p_one_frame]
    by_cases h119 : n < 119
    · rw [if_pos (show (0 : Int) ≤ (n : Int) ∧ (n : Int) < 119 by omega)]
      rw [if_pos (show n < 120 by omega), cellVal_header1, if_pos h119]
    · rw [if_neg (show ¬((0 : Int) ≤ (n : Int) ∧ (n : Int) < 119) by omega)]
      by_cases h0 : n < 120
      · rw [if_pos h0, cellVal_header1, if_neg h119]
      · rw [if_neg h0]
        by_cases h1 : n < 240
        · rw [if_pos h1, cellVal_nil]
        · rw [if_neg h1]
          by_cases h2 : n < 360
          · rw [if_pos h2, cellVal_nil]
          · rw [if_neg h2]
            by_cases h3 : n < 480
            · rw [if_pos h3, cellVal_nil]
            · rw [if_neg h3]

theorem pix0_two_frames (restA restB : List (List Char)) (y : Int) :
    getPixel [header1 :: restA, header1 :: restB, [], []] 0 y =
      p_two_frames y := by
  by_cases hneg : y < 0
  · rw [getPixel_neg hneg, p_two_frames,
      if_neg (show ¬((0 ≤ y ∧ y < 119) ∨ (120 ≤ y ∧ y < 239)) by omega)]
  · obtain ⟨n, rfl⟩ : ∃ n : Nat, y = (n : Int) :=
      ⟨y.toNat, (Int.toNat_of_nonneg (by omega)).symm⟩
    rw [show ((0 : Int)) = ((0 : Nat) : Int) from rfl, getPixel_four,
      p_two_frames]
    by_cases hin : ((0 : Int) ≤ (n : Int) ∧ (n : Int) < 119) ∨
        ((120 : Int) ≤ (n : Int) ∧ (n : Int) < 239)
    · rw [if_pos hin]
      by_cases h0 : n < 120
      · rw [if_pos h0, cellVal_header1, if_pos (by omega)]
      · rw [if_neg h0, if_pos (show n < 240 by omega), cellVal_header1,
          if_pos (by omega)]
    · rw [if_neg hin]
      by_cases h0 : n < 120
      · rw [if_pos h0, cellVal_header1, if_neg (by omega)]
      · rw [if_neg h0]
        by_cases h1 : n < 240
        · rw [if_pos h1, cellVal_header1, if_neg (by omega)]
        · rw [if_neg h1]
          by_cases h2 : n < 360
          · rw [if_pos h2, cellVal_nil]
          · rw [if_neg h2]
            by_cases h3 : n < 480
            · rw [if_pos h3, cellVal_nil]
            · rw [if_neg h3]

theorem pix1_one_frame (data : List (List Char)) (y : Int) :
    getPixel [header1 :: header2 :: data, [], [], []] 1 y = q_zero y := by
  by_cases hneg : y < 0
  · rw [getPixel_neg hneg, q_zero, if_pos hneg]
  · obtain ⟨n, rfl⟩ : ∃ n : Nat, y = (n : Int) :=
      ⟨y.toNat, (Int.toNat_of_nonneg (by omega)).symm⟩
    rw [show ((1 : Int)) = ((1 : Nat) : Int) from rfl, getPixel_four,
      q_zero, if_neg hneg]
    by_cases h0 : n < 120
    · rw [if_pos h0, cellVal_header2]
      by_cases h8 : n < 8
      · rw [if_pos h8, if_pos (show (n : Int) < 8 by omega)]
      · rw [if_neg h8, if_neg (show ¬(n : Int) < 8 by omega)]
        by_cases h10 : n < 10
        · rw [if_pos h10, if_pos (show (n : Int) < 10 by omega)]
        · rw [if_neg h10, if_neg (show ¬(n : Int) < 10 by omega)]
          by_cases h119 : n < 119
          · rw [if_pos h119, if_pos (show (n : Int) < 119 by omega)]
          · rw [if_neg h119, if_neg (show ¬(n : Int) < 119 by omega)]
    · rw [if_neg h0, if_neg (show ¬(n : Int) < 8 by omega),
        if_neg (show ¬(n : Int) < 10 by omega),
        if_neg (show ¬(n : Int) < 119 by omega)]
      by_cases h1 : n < 240
      · rw [if_pos h1, cellVal_nil]
      · rw [if_neg h1]
        by_cases h2 : n < 360
        · rw [if_pos h2, cellVal_nil]
        · rw [if_neg h2]
          by_cases h3 : n < 480
          · rw [if_pos h3, cellVal_nil]
          · rw [if_neg h3]

theorem scan_frames_one_frame (rest : List (List Char)) :
    scan_frames [header1 :: rest, [], [], []] = [(0, 118)] := by
  rw [scan_frames]
  rw [show img_height [header1 :: rest, [], [], []] = 480 from rfl]
  rw [show (fun y => getPixel [header1 :: rest, [], [], []] 0 y) =
    p_one_frame from funext (pix0_one_frame rest)]
  decide

theorem scan_frames_two_frames (restA restB : List (List Char)) :
    scan_frames [header1 :: restA, header1 :: restB, [], []] =
      [(0, 118), (120, 238)] := by
  rw [scan_frames]
  rw [show img_height [header1 :: restA, header1 :: restB, [], []] = 480
    from rfl]
  rw [show (fun y =>
      getPixel [header1 :: restA, header1 :: restB, [], []] 0 y) =
    p_two_frames from funext (pix0_two_frames restA restB)]
  decide

theorem recompute_frame_one_frame (data : List (List Char)) :
    recompute_frame [header1 :: header2 :: data, [], [], []] 0 118 =
      ⟨some 0, some 7, some 8, some 9, some 10, some 118⟩ := by
  rw [recompute_frame]
  rw [show (fun y =>
      getPixel [header1 :: header2 :: data, [], [], []] 1 y) =
    q_zero from funext (pix1_one_frame data)]
  decide

/-! # Reading fields back from a frame -/

theorem foldl_hex_read (f : Nat → Nat) :
    ∀ (l : List Char) (a acc : Nat),
      (∀ i (h : i < l.length), f (a + i) = hexCharVal l[i]) →
      (List.range' a l.length).foldl (fun r y => r * 16 + f y) acc =
        l.foldl (fun r c => r * 16 + hexCharVal c) acc := by
  intro l
  induction l with
  | nil => intro a acc _; rfl
  | cons c rest ih =>
    intro a acc H
    rw [List.length_cons, List.range'_succ, List.foldl_cons, List.foldl_cons]
    have h0 : f a = hexCharVal c := by
      have h := H 0 (by simp)
      simpa using h
    rw [h0]
    apply ih
    intro i h
    have hH := H (i + 1) (by simp only [List.length_cons]; omega)
    rw [show a + 1 + i = a + (i + 1) by omega]
    simpa using hH

theorem foldl_collect {P : Nat → Prop} [DecidablePred P] :
    ∀ (l : List Nat) (acc : List Nat),
      l.foldl (fun acc2 i => if P i then acc2 ++ [i] else acc2) acc =
        acc ++ l.filter (fun i => decide (P i)) := by
  intro l
  induction l with
  | nil => intro acc; simp
  | cons a t ih =>
    intro acc
    rw [List.foldl_cons]
    by_cases h : P a
    · rw [if_pos h, ih, List.filter_cons]
      simp [h]
    · rw [if_neg h, ih, List.filter_cons]
      simp [h]

theorem filter_range_eq_sorted (notes : List Nat) (k : Nat)
    (hs : List.Pairwise (· < ·) notes) (hb : ∀ p ∈ notes, p < k) :
    (List.range k).filter (fun i => decide (i ∈ notes)) = notes := by
  haveI : IsAntisymm Nat (· < ·) :=
    ⟨fun a b h1 h2 => absurd (lt_trans h1 h2) (lt_irrefl a)⟩
  apply List.eq_of_perm_of_sorted ?_ ?_ hs
  · apply (List.perm_ext_iff_of_nodup ?_ ?_).mpr
    · intro a
      simp only [List.mem_filter, List.mem_range, decide_eq_true_eq]
      exact ⟨fun h => h.2, fun h => ⟨hb a h, h⟩⟩
    · exact (List.nodup_range k).filter _
    · exact (List.Pairwise.imp (fun h => Nat.ne_of_lt h) hs : _)
  · exact List.Pairwise.filter _ (List.pairwise_lt_range k)

theorem cellVal_data {data : List (List Char)} (x r : Nat) :
    cellVal (header1 :: header2 :: data) (x + 2) r = cellVal data x r := by
  rw [cellVal, cellVal]
  have h : (header1 :: header2 :: data)[x + 2]? = data[x]? := by
    rw [show x + 2 = x + 1 + 1 by omega, List.getElem?_cons_succ,
      List.getElem?_cons_succ]
  rw [h]

theorem getPixel_data (chords : List Chord) (x y : Nat)
    (hx : x < chords.length) (hy : y < 120) :
    getPixel [header1 :: header2 :: chords.map col_of, [], [], []]
        ((x : Int) + 2) (y : Int) =
      (match (col_of chords[x])[y]? with
       | none => 0
       | some c => hexCharVal c) := by
  rw [show ((x : Int) + 2) = (((x + 2 : Nat)) : Int) by push_cast; ring]
  rw [getPixel_four, if_pos hy, cellVal_data, cellVal]
  rw [List.getElem?_map]
  rw [List.getElem?_eq_getElem hx]
  rfl

theorem col_match_time {c : Chord} (ht : c.time < 4294967296)
    (hv : c.velocity < 256) {i : Nat} (h : i < (format_hex c.time 8).length) :
    (match (col_of c)[i]? with
     | none => 0
     | some ch => hexCharVal ch) = hexCharVal (format_hex c.time 8)[i] := by
  have h8 : (format_hex c.time 8).length = 8 :=
    format_hex_length_eq (by omega) (by norm_num; omega)
  have h2 : (format_hex c.velocity 2).length = 2 :=
    format_hex_length_eq (by omega) (by norm_num; omega)
  rw [col_of]
  rw [List.getElem?_append_left (show i <
    (format_hex c.time 8 ++ format_hex c.velocity 2 ++
      flags_of c.notes).length by
    simp only [List.length_append, flags_of_length]; omega)]
  rw [List.getElem?_append_left (show i <
    (format_hex c.time 8 ++ format_hex c.velocity 2).length by
    simp only [List.length_append]; omega)]
  rw [List.getElem?_append_left h]
  rw [List.getElem?_eq_getElem h]

theorem col_match_vel {c : Chord} (ht : c.time < 4294967296)
    (hv : c.velocity < 256) {i : Nat}
    (h : i < (format_hex c.velocity 2).length) :
    (match (col_of c)[8 + i]? with
     | none => 0
     | some ch => hexCharVal ch) =
      hexCharVal (format_hex c.velocity 2)[i] := by
  have h8 : (format_hex c.time 8).length = 8 :=
    format_hex_length_eq (by omega) (by norm_num; omega)
  have h2 : (format_hex c.velocity 2).length = 2 :=
    format_hex_length_eq (by omega) (by norm_num; omega)
  rw [col_of]
  rw [List.getElem?_append_left (show 8 + i <
    (format_hex c.time 8 ++ format_hex c.velocity 2 ++
      flags_of c.notes).length by
    simp only [List.length_append, flags_of_length]; omega)]
  rw [List.getElem?_append_left (show 8 + i <
    (format_hex c.time 8 ++ format_hex c.velocity 2).length by
    simp only [List.length_append]; omega)]
  rw [List.getElem?_append_right (show
    (format_hex c.time 8).length ≤ 8 + i by omega)]
  rw [show 8 + i - (format_hex c.time 8).length = i by omega]
  rw [List.getElem?_eq_getElem h]

theorem col_match_flag {c : Chord} (ht : c.time < 4294967296)
    (hv : c.velocity < 256) {i : Nat} (hi : i < 109) :
    (match (col_of c)[10 + i]? with
     | none => 0
     | some ch => hexCharVal ch) =
      if i ∈ c.notes then hexCharVal (sharp_flag i) else 0 := by
  have h8 : (format_hex c.time 8).length = 8 :=
    format_hex_length_eq (by omega) (by norm_num; omega)
  have h2 : (format_hex c.velocity 2).length = 2 :=
    format_hex_length_eq (by omega) (by norm_num; omega)
  rw [col_of]
  rw [List.getElem?_append_left (show 10 + i <
    (format_hex c.time 8 ++ format_hex c.velocity 2 ++
      flags_of c.notes).length by
    simp only [List.length_append, flags_of_length]; omega)]
  rw [List.getElem?_append_right (show
    (format_hex c.time 8 ++ format_hex c.velocity 2).length ≤ 10 + i by
    simp only [List.length_append]; omega)]
  rw [show 10 + i - (format_hex c.time 8 ++ format_hex c.velocity 2).length
    = i by simp only [List.length_append]; omega]
  rw [flags_of, List.getElem?_map, List.getElem?_range hi]
  simp only [Option.map_some']
  by_cases hm : i ∈ c.notes
  · rw [if_pos hm, if_pos hm]
  · rw [if_neg hm, if_neg hm]
    rfl

theorem decode_duration (chords : List Chord) (x : Nat)
    (hx : x < chords.length) (ht : chords[x].time < 4294967296)
    (hv : chords[x].velocity < 256) :
    get_duration [header1 :: header2 :: chords.map col_of, [], [], []]
      ⟨some 0, some 7, some 8, some 9, some 10, some 118⟩ x =
      chords[x].time := by
  have h8 : (format_hex chords[x].time 8).length = 8 :=
    format_hex_length_eq (by omega) (by norm_num; omega)
  rw [get_duration]
  simp only [get_hex_val]
  rw [show (7 + 1 - 0 : Nat) = (format_hex chords[x].time 8).length from
    by omega]
  rw [foldl_hex_read _ _ 0 0 ?_]
  · exact fromHexVals_format_hex chords[x].time 8
  · intro i h
    rw [Nat.zero_add]
    rw [getPixel_data chords x i hx (by rw [h8] at h; omega)]
    exact col_match_time ht hv h

theorem decode_velocity (chords : List Chord) (x : Nat)
    (hx : x < chords.length) (ht : chords[x].time < 4294967296)
    (hv : chords[x].velocity < 256) :
    get_velocity [header1 :: header2 :: chords.map col_of, [], [], []]
      ⟨some 0, some 7, some 8, some 9, some 10, some 118⟩ x =
      chords[x].velocity := by
  have h2 : (format_hex chords[x].velocity 2).length = 2 :=
    format_hex_length_eq (by omega) (by norm_num; omega)
  rw [get_velocity]
  simp only [get_hex_val]
  rw [show (9 + 1 - 8 : Nat) = (format_hex chords[x].velocity 2).length from
    by omega]
  rw [foldl_hex_read _ _ 8 0 ?_]
  · exact fromHexVals_format_hex chords[x].velocity 2
  · intro i h
    rw [getPixel_data chords x (8 + i) hx (by rw [h2] at h; omega)]
    exact col_match_vel ht hv h

theorem decode_notes (chords : List Chord) (x : Nat)
    (hx : x < chords.length) (ht : chords[x].time < 4294967296)
    (hv : chords[x].velocity < 256)
    (hs : List.Pairwise (· < ·) chords[x].notes)
    (hb : ∀ p ∈ chords[x].notes, p < 109) :
    get_notes [header1 :: header2 :: chords.map col_of, [], [], []]
      ⟨some 0, some 7, some 8, some 9, some 10, some 118⟩ x =
      chords[x].notes := by
  rw [get_notes]
  dsimp only
  rw [show (118 + 1 - 10 : Nat) = 109 from by omega]
  rw [foldl_collect]
  rw [List.nil_append]
  rw [List.filter_congr (fun i hi => ?_)]
  · exact filter_range_eq_sorted chords[x].notes 109 hs hb
  · rw [List.mem_range] at hi
    have hcast : ((10 : Nat) : Int) + (i : Int) = (((10 + i : Nat)) : Int) := by
      push_cast
      ring
    rw [hcast, getPixel_data chords x (10 + i) hx (by omega)]
    rw [col_match_flag ht hv hi]
    by_cases hm : i ∈ chords[x].notes
    · rw [if_pos hm]
      have hrhs : decide (i ∈ chords[x].notes) = true := by simp [hm]
      rw [hrhs, sharp_flag]
      by_cases hsh : is_sharp ((i : Int) - 21)
      · rw [if_pos hsh]
        decide
      · rw [if_neg hsh]
        decide
    · rw [if_neg hm]
      simp [hm]

theorem img_width_four (c0 c1 c2 c3 : List (List Char)) :
    img_width [c0, c1, c2, c3] =
      max c0.length (max c1.length (max c2.length c3.length)) := by
  rw [img_width]
  simp [List.foldr]

theorem decode_frame_one (chords : List Chord)
    (hc : ∀ c ∈ chords, c.time < 4294967296 ∧ c.velocity < 256 ∧
      List.Pairwise (· < ·) c.notes ∧ ∀ p ∈ c.notes, p < 109) :
    decode_frame [header1 :: header2 :: chords.map col_of, [], [], []]
      (0, 118) = chords := by
  rw [decode_frame]
  dsimp only
  rw [recompute_frame_one_frame]
  have hw : img_width
      [header1 :: header2 :: chords.map col_of, [], [], []] - 2 =
      chords.length := by
    rw [img_width_four]
    simp only [List.length_cons, List.length_map, List.length_nil]
    omega
  rw [hw]
  apply List.ext_getElem (by simp)
  intro i h1 h2
  rw [List.getElem_map, List.getElem_range]
  obtain ⟨ht, hv, hs, hb⟩ := hc chords[i] (List.getElem_mem h2)
  rw [decode_duration chords i h2 ht hv, decode_velocity chords i h2 ht hv,
    decode_notes chords i h2 ht hv hs hb]

/-! # C1: the round trip of the codec -/

/-- C1 — corrected.  For chord sequences of at most 510 chords (the data
capacity of one frame) with onset delay in `[0, 2^32-1]` ms, velocity in
`[0, 255]` and strictly ascending note lists within `[0, 87]`, decoding
the encoder's pixel-grid output — the frame extent located by the
column-0 transition scan, the three bands by the column-1 scan, and the
fields read per data column by `get_hex_val` and `get_notes` — reproduces
exactly the same chords in the same order.  (Beyond 510 chords the final
partial frame can share an image block with a full-width frame; the
per-image `frame_length = width - 2` then makes the decoder read ghost
columns, which is the counterexample.) -/
theorem decode_encode_roundtrip (chords : List Chord)
    (hlen : chords.length ≤ 510)
    (hc : ∀ c ∈ chords, c.time < 4294967296 ∧ c.velocity < 256 ∧
      List.Pairwise (· < ·) c.notes ∧ ∀ p ∈ c.notes, p ≤ 87) :
    (encode_images chords).map decode_images = some chords := by
  have hc' : ∀ c ∈ chords, c.time < 4294967296 ∧ c.velocity < 256 ∧
      List.Pairwise (· < ·) c.notes ∧ ∀ p ∈ c.notes, p < 109 := by
    intro c h
    obtain ⟨a, b, c2, d⟩ := hc c h
    exact ⟨a, b, c2, fun p hp => by have := d p hp; omega⟩
  by_cases hnil : chords = []
  · subst hnil
    rw [encode_images, show encode_cols [] = some [] from rfl,
      Option.map_some', toBlocks_nil, Option.map_some']
    rfl
  · have hpos : 1 ≤ chords.length := List.length_pos.mpr hnil
    rw [encode_images, encode_cols_single_frame chords hpos hlen,
      mapO_colM_valid fun c h => (hc' c h).2.2.2]
    simp only [Option.map_some']
    have hlen512 : (header1 :: header2 :: chords.map col_of).length ≤ 512 := by
      simp only [List.length_cons, List.length_map]
      omega
    rw [toBlocks_single (by simp) (le_trans hlen512 (by norm_num))]
    rw [List.take_of_length_le hlen512]
    rw [List.drop_eq_nil_of_le (le_trans hlen512 (by norm_num)),
      List.drop_eq_nil_of_le (le_trans hlen512 (by norm_num)),
      List.drop_eq_nil_of_le (le_trans hlen512 (by norm_num))]
    simp only [List.take_nil]
    rw [decode_images]
    simp only [List.map_cons, List.map_nil]
    rw [scan_frames_one_frame]
    simp only [List.map_cons, List.map_nil, List.flatten_cons,
      List.flatten_nil, List.append_nil]
    rw [decode_frame_one chords hc']

/-- Witness for C1's theorem: a one-chord sequence (delay 5 ms, velocity
80, notes 39 and 43) decodes back to itself. -/
theorem decode_encode_roundtrip_witness :
    (encode_images [⟨5, 80, [39, 43]⟩]).map decode_images =
      some [⟨5, 80, [39, 43]⟩] :=
  decode_encode_roundtrip [⟨5, 80, [39, 43]⟩] (by decide) (by decide)

theorem encode_cols_cex511 :
    encode_cols cex511 =
      some ((header1 :: header2 ::
          List.replicate 510 (col_of cex_chord)) ++
        [header1, header2, col_of cex_chord]) := by
  have hv : ∀ c ∈ cex511, ∀ p ∈ c.notes, p < 109 := by
    intro c hcm
    rw [cex511] at hcm
    rw [List.eq_of_mem_replicate hcm]
    simp [cex_chord]
  have hchunk : chunk510 cex511 =
      [List.replicate 510 cex_chord, [cex_chord]] := by
    rw [chunk510_cons (by rw [cex511]; simp)]
    rw [cex511, List.take_replicate, List.drop_replicate]
    rw [chunk510_cons (by simp), List.take_replicate, List.drop_replicate]
    norm_num
    rw [chunk510_nil]
  rw [encode_cols_eq_frames, encode_frames_closed hv, hchunk]
  simp only [List.map_cons, List.map_nil, Option.map_some',
    List.flatten_cons, List.flatten_nil, List.map_replicate,
    List.append_nil, Option.some_inj]

theorem toBlocks_cex511 :
    toBlocks ((header1 :: header2 ::
        List.replicate 510 (col_of cex_chord)) ++
      [header1, header2, col_of cex_chord]) =
      [[header1 :: header2 :: List.replicate 510 (col_of cex_chord),
        [header1, header2, col_of cex_chord], [], []]] := by
  have hlenA : (header1 :: header2 ::
      List.replicate 510 (col_of cex_chord)).length = 512 := by
    simp [List.length_replicate]
  have hlen : ((header1 :: header2 ::
      List.replicate 510 (col_of cex_chord)) ++
      [header1, header2, col_of cex_chord]).length = 515 := by
    simp [List.length_append, List.length_replicate]
  have htake : ((header1 :: header2 ::
      List.replicate 510 (col_of cex_chord)) ++
      [header1, header2, col_of cex_chord]).take 512 =
      header1 :: header2 :: List.replicate 510 (col_of cex_chord) := by
    rw [← hlenA, List.take_left]
  have hdrop : ((header1 :: header2 ::
      List.replicate 510 (col_of cex_chord)) ++
      [header1, header2, col_of cex_chord]).drop 512 =
      [header1, header2, col_of cex_chord] := by
    rw [← hlenA, List.drop_left]
  rw [toBlocks_single (by simp) (by rw [hlen]; norm_num)]
  rw [htake, hdrop]
  rw [List.drop_eq_nil_of_le (by rw [hlen]; norm_num),
    List.drop_eq_nil_of_le (by rw [hlen]; norm_num)]
  simp only [List.take_nil]
  rw [List.take_of_length_le (by simp)]

theorem decode_cex511_length :
    (decode_images
      [[header1 :: header2 :: List.replicate 510 (col_of cex_chord),
        [header1, header2, col_of cex_chord], [], []]]).length = 1020 := by
  rw [decode_images]
  simp only [List.map_cons, List.map_nil]
  rw [scan_frames_two_frames]
  have hwidth : img_width
      [header1 :: header2 :: List.replicate 510 (col_of cex_chord),
        [header1, header2, col_of cex_chord], [], []] = 512 := by
    rw [img_width_four]
    simp [List.length_replicate]
  simp only [List.map_cons, List.map_nil, List.flatten_cons,
    List.flatten_nil, List.append_nil, List.length_append]
  rw [decode_frame, decode_frame]
  dsimp only
  rw [hwidth]
  simp

/-- Counterexample to C1 as stated: the 511-chord sequence (each chord
with delay 0, velocity 0, empty note set — all within the claimed
ranges) does not round-trip.  Its 511 data columns split into a full
510-column frame and a 1-column frame stacked in the same image block, so
the image is 512 cells wide and the decoder's per-image
`frame_length = width - 2 = 510` makes it read 510 columns from each of
the two frames: 1020 decoded tuples instead of 511. -/
theorem decode_encode_roundtrip_cex :
    (encode_images cex511).map decode_images ≠ some cex511 := by
  intro hcon
  rw [encode_images, encode_cols_cex511, Option.map_some', toBlocks_cex511,
    Option.map_some'] at hcon
  have h2 := Option.some.inj hcon
  have h3 := congrArg List.length h2
  rw [decode_cex511_length] at h3
  rw [cex511, List.length_replicate] at h3
  exact absurd h3 (by decide)
